import Mathlib

/-!
Verification development for the team/project dashboard application
(source: src/app.py).  The relational entity store (projects, tasks,
team members, project-member links) and the derived mindmap graph
(nodes, connections) are embedded shallowly; the mindmap synchronizer
(sync_mindmap_internal), the task CRUD routes, and the intelligent
task-assignment helper (assign_tasks_intelligently_with_mcp) are
translated as pure functions over that state.

Modelling conventions:
- SQLAlchemy query enumeration order (Project.query.all and friends) is
  the order of the embedded lists.
- JSON request bodies are modelled as records of optional string fields;
  a field that is absent maps to Option.none.  Null-valued JSON fields
  are not modelled separately from absent ones where the source treats
  them the same way.
- An exception raised by the database layer during a synchronizer pass
  is modelled by a boolean oracle: the pass either runs to completion or
  fails as a whole, in which case the session rollback restores the
  previous state.
- Python truthiness of a nullable string column (if task.assigned_to)
  is modelled explicitly: both None and the empty string are falsy.
-/

namespace TeamDash

/-- A row of the projects table (id is the caller-assigned primary key). -/
structure Project where
  id : String
  name : String
deriving DecidableEq, Repr

/-- A row of the team_members table. -/
structure TeamMember where
  id : String
  name : String
  role : String
deriving DecidableEq, Repr

/-- A row of the tasks table.  assignedTo is the weak reference to a
team member (nullable). -/
structure Task where
  id : String
  title : String
  priority : String
  deadline : String
  projectId : String
  assignedTo : Option String
deriving DecidableEq, Repr

/-- The relational entity store: projects, tasks, team members and
project-member links, each in query enumeration order. -/
structure EntityStore where
  projects : List Project
  tasks : List Task
  members : List TeamMember
  projectMembers : List (String × String)
deriving DecidableEq, Repr

/-- A row of the nodes table as written by the synchronizer. -/
structure GNode where
  id : Nat
  x : Int
  y : Int
  text : String
  level : Nat
  entityType : Option String
  entityId : Option String
deriving DecidableEq, Repr

/-- A row of the connections table: a directed edge between node ids. -/
structure GConn where
  fromNode : Nat
  toNode : Nat
deriving DecidableEq, Repr

/-- The derived graph model: all node and connection rows. -/
structure Graph where
  nodes : List GNode
  conns : List GConn
deriving DecidableEq, Repr

/-- The whole database: entity store plus graph model. -/
structure DBState where
  store : EntityStore
  graph : Graph
deriving DecidableEq, Repr

/-- Python truthiness of task.assigned_to: None and the empty string
are falsy, any other string is truthy. -/
def truthyAssigned (t : Task) : Option String :=
  match t.assignedTo with
  | none => none
  | some a => if a = "" then none else some a

/-- TeamMember.query.get on the primary key. -/
def findMember (members : List TeamMember) (mid : String) : Option TeamMember :=
  members.find? (fun m => m.id = mid)

/-- Task.query.get on the primary key. -/
def findTask (tasks : List Task) (tid : String) : Option Task :=
  tasks.find? (fun t => t.id = tid)

/-- Insert a string into an ascending list, keeping it sorted. -/
def insertSorted (x : String) : List String → List String
  | [] => [x]
  | y :: ys => if x ≤ y then x :: y :: ys else y :: insertSorted x ys

/-- Ascending insertion sort on strings; models Python sorted on a set
of strings (code-point lexicographic order). -/
def sortStr (l : List String) : List String := l.foldr insertSorted []

/-- Remove duplicates, keeping the first occurrence; models building a
Python set from a list before sorting it. -/
def dedupStr : List String → List String
  | [] => []
  | x :: xs => x :: (dedupStr xs).filter (fun y => y ≠ x)

/-- Task.query.filter_by(project_id=pid).all(). -/
def projectTasks (s : EntityStore) (pid : String) : List Task :=
  s.tasks.filter (fun t => t.projectId = pid)

/-- sorted(set(task.assigned_to for task in tasks if task.assigned_to)):
the distinct truthy assigned member ids in ascending order. -/
def assignedIds (tasks : List Task) : List String :=
  sortStr (dedupStr (tasks.filterMap truthyAssigned))

/-- Task title display text: first 40 characters, with an ellipsis
marker appended exactly when the title is longer than 40 characters. -/
def truncTitle (title : String) : String :=
  title.take 40 ++ (if title.length > 40 then "..." else "")

/-- The key used in the synchronizer node_map dictionary. -/
def projectKey (pid : String) : String := "project_" ++ pid

/-- First loop of sync_mindmap_internal: one level-0 node per project
at x=150, y=250+450*idx, while recording the node id under the
project key in the node_map dictionary and advancing the id counter. -/
def phase1 : List Project → Nat → Nat → (String → Option Nat) →
    List GNode × Nat × (String → Option Nat)
  | [], _, counter, m => ([], counter, m)
  | p :: rest, idx, counter, m =>
    let node : GNode :=
      ⟨counter, 150, 250 + 450 * (idx : Int), p.name, 0, some "project", some p.id⟩
    let m' : String → Option Nat :=
      fun k => if k = projectKey p.id then some counter else m k
    let r := phase1 rest (idx + 1) (counter + 1) m'
    (node :: r.1, r.2.1, r.2.2)

/-- Innermost loop of sync_mindmap_internal: one level-3 node per task
of the current member, at x=1350, y = yStart + 90*mIdx + 60*tIdx - 20,
each connected from the member node. -/
def taskLoop (memberNodeId : Nat) (yStart : Int) (mIdx : Nat) :
    List Task → Nat → Nat → List GNode × List GConn × Nat
  | [], _, counter => ([], [], counter)
  | t :: rest, tIdx, counter =>
    let node : GNode :=
      ⟨counter, 1350, yStart + 90 * (mIdx : Int) + 60 * (tIdx : Int) - 20,
        truncTitle t.title, 3, some "task", some t.id⟩
    let c : GConn := ⟨memberNodeId, counter⟩
    let r := taskLoop memberNodeId yStart mIdx rest (tIdx + 1) (counter + 1)
    (node :: r.1, c :: r.2.1, r.2.2)

/-- Middle loop of sync_mindmap_internal: one level-2 node per distinct
assigned member id (skipping ids whose member row is missing, while
still advancing the enumeration index), connected from the team node,
followed by that member's task nodes. -/
def memberLoop (members : List TeamMember) (tasks : List Task)
    (teamNodeId : Nat) (yStart : Int) :
    List String → Nat → Nat → List GNode × List GConn × Nat
  | [], _, counter => ([], [], counter)
  | mid :: rest, mIdx, counter =>
    match findMember members mid with
    | none => memberLoop members tasks teamNodeId yStart rest (mIdx + 1) counter
    | some mem =>
      let mTasks := tasks.filter (fun t => t.assignedTo = some mid)
      let node : GNode :=
        ⟨counter, 950, yStart + 90 * (mIdx : Int),
          mem.name ++ " - " ++ mem.role, 2, some "member", some mem.id⟩
      let c : GConn := ⟨teamNodeId, counter⟩
      let tr := taskLoop counter yStart mIdx mTasks 0 (counter + 1)
      let mr := memberLoop members tasks teamNodeId yStart rest (mIdx + 1) tr.2.2
      (node :: (tr.1 ++ mr.1), c :: (tr.2.1 ++ mr.2.1), mr.2.2)

/-- Second project loop of sync_mindmap_internal: look up the project
node id in node_map (a missing key would raise, modelled as none),
skip projects with no truthy assigned member id, otherwise emit the
level-1 team node, the member nodes and the task nodes. -/
def phase2 (s : EntityStore) (m : String → Option Nat) :
    List Project → Nat → Nat → Option (List GNode × List GConn × Nat)
  | [], _, counter => some ([], [], counter)
  | p :: rest, idx, counter =>
    match m (projectKey p.id) with
    | none => none
    | some projectNodeId =>
      let tasks := projectTasks s p.id
      let aIds := assignedIds tasks
      if aIds = [] then
        phase2 s m rest (idx + 1) counter
      else
        let teamNode : GNode :=
          ⟨counter, 550, 250 + 450 * (idx : Int), "Team Members", 1,
            some "team", some p.id⟩
        let tc : GConn := ⟨projectNodeId, counter⟩
        let yStart : Int := 150 + 450 * (idx : Int)
        let mr := memberLoop s.members tasks counter yStart aIds 0 (counter + 1)
        match phase2 s m rest (idx + 1) mr.2.2 with
        | none => none
        | some r =>
          some (teamNode :: (mr.1 ++ r.1), tc :: (mr.2.1 ++ r.2.1), r.2.2)

/-- The graph built by a successful synchronizer pass from the entity
store: clear everything, stop early when there are no projects, else
run both phases with a single id counter starting at 0.  none models
an uncaught lookup error inside the pass. -/
def sync_build (s : EntityStore) : Option Graph :=
  if s.projects = [] then some ⟨[], []⟩
  else
    let p1 := phase1 s.projects 0 0 (fun _ => none)
    match phase2 s p1.2.2 s.projects 0 p1.2.1 with
    | none => none
    | some r => some ⟨p1.1 ++ r.1, r.2.1⟩

/-- sync_mindmap_internal: on any failure (the failStep oracle, or an
internal error) the session is rolled back and the database is left
exactly as it was; on success the graph model is replaced wholesale
and the entity store is untouched. -/
def sync_mindmap_internal (failStep : Bool) (db : DBState) : DBState :=
  if failStep then db
  else
    match sync_build db.store with
    | some g => ⟨db.store, g⟩
    | none => db

/-- The POST /api/sync-mindmap route: runs the internal sync (which
swallows its own errors) and always answers with success=True. -/
def sync_mindmap (failStep : Bool) (db : DBState) : DBState × Bool :=
  (sync_mindmap_internal failStep db, true)

/-- HTTP-level outcome of a route handler: a 200 body, a 404 error
body, a 400 error body, or an uncaught exception turned into a 500
internal server error by the framework. -/
inductive HttpOutcome where
  | ok
  | notFound
  | badRequest
  | serverError
deriving DecidableEq, Repr

/-- The JSON body of a POST /api/tasks request; none means the key is
absent from the body (a direct subscription then raises KeyError). -/
structure TaskData where
  id : Option String
  title : Option String
  priority : Option String
  deadline : Option String
  projectId : Option String
  assignedTo : Option String
deriving DecidableEq, Repr

/-- The POST /api/tasks route (create_or_update_task): upsert by id,
merging provided fields over an existing row or inserting a new row,
then trigger a mindmap sync.  A missing id / title / deadline /
projectId on the insert path raises KeyError, which the framework
reports as a 500 error with no mutation. -/
def create_or_update_task (db : DBState) (d : TaskData) : DBState × HttpOutcome :=
  match d.id with
  | none => (db, .serverError)
  | some tid =>
    match findTask db.store.tasks tid with
    | some _ =>
      let tasks' := db.store.tasks.map (fun t =>
        if t.id = tid then
          { t with
            title := d.title.getD t.title,
            priority := d.priority.getD t.priority,
            deadline := d.deadline.getD t.deadline,
            projectId := d.projectId.getD t.projectId,
            assignedTo := (match d.assignedTo with
              | some a => some a
              | none => t.assignedTo) }
        else t)
      (sync_mindmap_internal false ⟨{ db.store with tasks := tasks' }, db.graph⟩, .ok)
    | none =>
      match d.title, d.deadline, d.projectId with
      | some title, some deadline, some projectId =>
        let task : Task :=
          ⟨tid, title, d.priority.getD "medium", deadline, projectId, d.assignedTo⟩
        (sync_mindmap_internal false
          ⟨{ db.store with tasks := db.store.tasks ++ [task] }, db.graph⟩, .ok)
      | _, _, _ => (db, .serverError)

/-- The PUT /api/tasks/(id)/assign route (assign_task): set the task's
assignedTo to the request value (absent means unassign) with no check
that the member exists, then trigger a mindmap sync. -/
def assign_task (db : DBState) (taskId : String) (assignedTo : Option String) :
    DBState × HttpOutcome :=
  match findTask db.store.tasks taskId with
  | none => (db, .notFound)
  | some _ =>
    let tasks' := db.store.tasks.map (fun t =>
      if t.id = taskId then { t with assignedTo := assignedTo } else t)
    (sync_mindmap_internal false ⟨{ db.store with tasks := tasks' }, db.graph⟩, .ok)

/-- The DELETE /api/team-members/(id) route (delete_team_member): null
out every task assignment pointing at the member, drop the member's
project links, and delete the member row.  This route does not trigger
a mindmap sync. -/
def delete_team_member (db : DBState) (mid : String) : DBState × HttpOutcome :=
  match findMember db.store.members mid with
  | none => (db, .notFound)
  | some _ =>
    let tasks' := db.store.tasks.map (fun t =>
      if t.assignedTo = some mid then { t with assignedTo := none } else t)
    let pms' := db.store.projectMembers.filter (fun pm => pm.2 ≠ mid)
    let members' := db.store.members.filter (fun m => m.id ≠ mid)
    (⟨⟨db.store.projects, tasks', members', pms'⟩, db.graph⟩, .ok)

/-- The referential invariant on task assignments: every non-null
Task.assignedTo names an existing TeamMember. -/
def assignedToValidB (s : EntityStore) : Bool :=
  s.tasks.all (fun t =>
    match t.assignedTo with
    | none => true
    | some a => s.members.any (fun m => m.id = a))

/-- The parsed JSON proposal returned by the external advisor: a team
of member ids and a list of (task id, member id) assignments. -/
structure Proposal where
  team : List String
  assignments : List (String × String)
deriving DecidableEq, Repr

/-- Outcome of assign_tasks_intelligently_with_mcp: an informational
message, an error message, or a success with the number of team links
and assignments actually written. -/
inductive AssignOutcome where
  | info (msg : String)
  | err (msg : String)
  | assigned (teamFormed : Nat) (assignmentsMade : Nat)
deriving DecidableEq, Repr

/-- Team loop of assign_tasks_intelligently_with_mcp: for each proposed
member id, silently skip it when the member row is missing or the link
already exists, otherwise append the (project, member) link.  Returns
the updated store and the number of links added. -/
def addTeamLinks (s : EntityStore) (pid : String) :
    List String → EntityStore × Nat
  | [] => (s, 0)
  | mid :: rest =>
    match findMember s.members mid with
    | none => addTeamLinks s pid rest
    | some _ =>
      if (pid, mid) ∈ s.projectMembers then addTeamLinks s pid rest
      else
        let r := addTeamLinks
          { s with projectMembers := s.projectMembers ++ [(pid, mid)] } pid rest
        (r.1, r.2 + 1)

/-- Assignment loop of assign_tasks_intelligently_with_mcp: for each
proposed (task id, member id) pair, silently skip it when either row is
missing, otherwise overwrite the task's assignedTo — with no check that
the task is unassigned or belongs to the given project. -/
def applyAssignments (s : EntityStore) :
    List (String × String) → EntityStore × Nat
  | [] => (s, 0)
  | (tid, mid) :: rest =>
    match findTask s.tasks tid, findMember s.members mid with
    | some _, some _ =>
      let tasks' := s.tasks.map (fun t =>
        if t.id = tid then { t with assignedTo := some mid } else t)
      let r := applyAssignments { s with tasks := tasks' } rest
      (r.1, r.2 + 1)
    | _, _ => applyAssignments s rest

/-- assign_tasks_intelligently_with_mcp: bail out early (with no
mutation) when the project has no unassigned task or the system has no
team member at all; proposal = none models an unreachable advisor or an
unparseable response, which also fails before any write; otherwise
apply the proposal per entry and trigger a mindmap sync. -/
def assign_tasks_intelligently_with_mcp (db : DBState) (pid : String)
    (proposal : Option Proposal) : DBState × AssignOutcome :=
  let unassigned := db.store.tasks.filter
    (fun t => t.projectId = pid ∧ t.assignedTo = none)
  if unassigned = [] then (db, .info "No unassigned tasks found")
  else if db.store.members = [] then
    (db, .err "No team members available in the system")
  else
    match proposal with
    | none => (db, .err "Failed to parse AI response")
    | some prop =>
      let r1 := addTeamLinks db.store pid prop.team
      let r2 := applyAssignments r1.1 prop.assignments
      (sync_mindmap_internal false ⟨r2.1, db.graph⟩, .assigned r1.2 r2.2)

/-- The last proposal entry that the assignment loop actually applies to
the task with the given id: the latest (task id, member id) pair naming
this task whose member id resolves to an existing team member. -/
def lastApplicable (members : List TeamMember) :
    List (String × String) → String → Option (String × String)
  | [], _ => none
  | e :: rest, tid =>
    match lastApplicable members rest tid with
    | some r => some r
    | none =>
      if e.1 = tid ∧ (findMember members e.2).isSome = true then some e else none

/-! ### Concrete fixtures used by witnesses and counterexamples -/

/-- One project, one member, one assigned task. -/
def sampleStore : EntityStore :=
  ⟨[⟨"p1", "Website"⟩],
   [⟨"t1", "Build API", "high", "Nov 10", "p1", some "m1"⟩],
   [⟨"m1", "Ann", "Backend"⟩], []⟩

/-- The graph a synchronizer pass derives from sampleStore. -/
def sampleGraph : Graph :=
  ⟨[⟨0, 150, 250, "Website", 0, some "project", some "p1"⟩,
    ⟨1, 550, 250, "Team Members", 1, some "team", some "p1"⟩,
    ⟨2, 950, 150, "Ann - Backend", 2, some "member", some "m1"⟩,
    ⟨3, 1350, 130, "Build API", 3, some "task", some "t1"⟩],
   [⟨0, 1⟩, ⟨1, 2⟩, ⟨2, 3⟩]⟩

/-- One project with a single unassigned task and no team members. -/
def storeNoMembers : EntityStore :=
  ⟨[⟨"p1", "Website"⟩],
   [⟨"t1", "Build API", "high", "Nov 10", "p1", none⟩], [], []⟩

/-- The graph a synchronizer pass derives from storeNoMembers: only the
level-0 project node. -/
def graphOnlyProject : Graph :=
  ⟨[⟨0, 150, 250, "Website", 0, some "project", some "p1"⟩], []⟩

/-- Database with storeNoMembers and an empty graph. -/
def dbNoMembers : DBState := ⟨storeNoMembers, ⟨[], []⟩⟩

/-- Database with one project, two unassigned tasks and one member. -/
def dbTwoTasks : DBState :=
  ⟨⟨[⟨"p1", "Website"⟩],
    [⟨"t1", "Build API", "high", "Nov 10", "p1", none⟩,
     ⟨"t2", "Docs", "low", "Nov 20", "p1", none⟩],
    [⟨"m1", "Ann", "Backend"⟩], []⟩, ⟨[], []⟩⟩

/-- A proposal naming one existing member and one unknown member id. -/
def mixedProposal : Proposal :=
  ⟨["m1", "ghost"], [("t1", "m1"), ("t2", "ghost")]⟩

/-- A POST /api/tasks body for a new task whose required deadline key
is missing. -/
def taskDataNoDeadline : TaskData :=
  ⟨some "t9", some "Title", none, none, some "p1", none⟩

/-- Database with two members, one assigned task and one project link;
its store satisfies the referential assignment invariant. -/
def dbTwoMembers : DBState :=
  ⟨⟨[⟨"p1", "Website"⟩],
    [⟨"t1", "Build API", "high", "Nov 10", "p1", some "m1"⟩,
     ⟨"t2", "Docs", "low", "Nov 20", "p1", some "m2"⟩],
    [⟨"m1", "Ann", "Backend"⟩, ⟨"m2", "Bob", "QA"⟩],
    [("p1", "m1")]⟩, ⟨[], []⟩⟩

/-! ### Claim theorems -/

/-- C1.  Running the synchronizer twice in a row with no entity store
mutation in between produces an identical graph model: the second pass
rebuilds exactly the nodes and connections of the first, because the
graph is a pure function of the entity store and the pass leaves the
entity store untouched. -/
theorem sync_idempotent (db : DBState) :
    (sync_mindmap_internal false (sync_mindmap_internal false db)).graph =
      (sync_mindmap_internal false db).graph := by
  unfold sync_mindmap_internal
  cases h : sync_build db.store with
  | none => simp [h]
  | some g => simp [h]

/-- C5 counterexample.  A synchronizer pass in which a step fails rolls
the database back (the state is unchanged), but the failure is NOT
surfaced to the caller: the POST /api/sync-mindmap route still answers
success=True, because sync_mindmap_internal swallows the exception.
This refutes the claim that the failure is surfaced to the caller of
the triggering operation. -/
theorem sync_failure_not_surfaced_counterexample :
    sync_mindmap true ⟨sampleStore, ⟨[], []⟩⟩ =
      (⟨sampleStore, ⟨[], []⟩⟩, true) := rfl

/-- C5 amended.  If any step of a synchronizer pass fails, the whole
pass rolls back atomically — the graph model and the entity store are
exactly as they were before the pass — but the failure is only logged,
not surfaced: the caller of the triggering operation receives a
success response regardless. -/
theorem sync_failure_rolls_back_silently (db : DBState) :
    sync_mindmap true db = (db, true) := rfl

/-- C7.  When the project has at least one unassigned task but the
system has no team members at all, the advisor returns the explicit
"No team members available in the system" error and performs zero
database mutation: the returned state is the input state, untouched in
every table. -/
theorem advisor_no_members (db : DBState) (pid : String) (prop : Option Proposal)
    (h1 : db.store.tasks.filter
      (fun t => t.projectId = pid ∧ t.assignedTo = none) ≠ [])
    (h2 : db.store.members = []) :
    assign_tasks_intelligently_with_mcp db pid prop =
      (db, .err "No team members available in the system") := by
  unfold assign_tasks_intelligently_with_mcp
  rw [if_neg h1, if_pos h2]

/-- C7 witness: a concrete database with one unassigned task and no
team members. -/
theorem advisor_no_members_witness :
    (dbNoMembers.store.tasks.filter
      (fun t => t.projectId = "p1" ∧ t.assignedTo = none) ≠ []) ∧
    dbNoMembers.store.members = [] ∧
    assign_tasks_intelligently_with_mcp dbNoMembers "p1" none =
      (dbNoMembers, .err "No team members available in the system") :=
  ⟨by decide, rfl, advisor_no_members dbNoMembers "p1" none (by decide) rfl⟩

/-- C8 counterexample.  The referential invariant on Task.assignedTo is
NOT preserved by the assign operation: starting from a store satisfying
the invariant, PUT /api/tasks/t1/assign with the nonexistent member id
"ghost" writes a dangling reference, because assign_task performs no
existence check. -/
theorem assigned_invariant_counterexample :
    assignedToValidB dbTwoTasks.store = true ∧
    findMember dbTwoTasks.store.members "ghost" = none ∧
    assignedToValidB (assign_task dbTwoTasks "t1" (some "ghost")).1.store = false := by
  refine ⟨rfl, rfl, ?_⟩
  decide

/-- C9 counterexample.  Inserting a new task whose required deadline
field is absent does not fail with a typed ValidationError reported as
a 400 response: the direct dictionary subscription raises KeyError,
which the framework reports as a 500 internal server error
(HttpOutcome.serverError, not HttpOutcome.badRequest). -/
theorem task_insert_missing_field_counterexample :
    create_or_update_task dbTwoTasks taskDataNoDeadline =
      (dbTwoTasks, .serverError) := by decide

/-- C9 amended.  Inserting a new task whose required title, deadline or
projectId field is absent fails with an uncaught KeyError that the
framework reports as a 500 internal server error, with no database
mutation; no typed ValidationError and no 400 response exist on this
path. -/
theorem task_insert_missing_required_is_500 (db : DBState) (d : TaskData)
    (tid : String) (hid : d.id = some tid)
    (hnew : findTask db.store.tasks tid = none)
    (hmiss : d.title = none ∨ d.deadline = none ∨ d.projectId = none) :
    create_or_update_task db d = (db, .serverError) := by
  obtain ⟨di, dt, dp, dd, dpj, da⟩ := d
  dsimp only at hid hmiss
  subst hid
  unfold create_or_update_task
  dsimp only
  rw [hnew]
  rcases hmiss with h | h | h <;> subst h
  · cases dd <;> cases dpj <;> rfl
  · cases dt <;> cases dpj <;> rfl
  · cases dt <;> cases dd <;> rfl

/-- C9 amended witness: the concrete missing-deadline body on the
concrete database. -/
theorem task_insert_missing_required_is_500_witness :
    taskDataNoDeadline.id = some "t9" ∧
    findTask dbTwoTasks.store.tasks "t9" = none ∧
    taskDataNoDeadline.deadline = none ∧
    create_or_update_task dbTwoTasks taskDataNoDeadline =
      (dbTwoTasks, .serverError) :=
  ⟨rfl, by decide, rfl,
    task_insert_missing_required_is_500 dbTwoTasks taskDataNoDeadline "t9" rfl
      (by decide) (Or.inr (Or.inl rfl))⟩

/-- C8 amended.  Only member deletion maintains the referential
invariant on Task.assignedTo: delete_team_member nulls out every
assignment pointing at the deleted member, so a store satisfying the
invariant still satisfies it afterwards.  (Task creation, update and
the assign operation write assignedTo unchecked, as the counterexample
shows.) -/
theorem delete_member_preserves_assigned_invariant (db : DBState) (mid : String)
    (h : assignedToValidB db.store = true) :
    assignedToValidB (delete_team_member db mid).1.store = true := by
  unfold delete_team_member
  cases hf : findMember db.store.members mid with
  | none => exact h
  | some mem =>
    dsimp only
    unfold assignedToValidB at h ⊢
    rw [List.all_eq_true] at h ⊢
    intro t' ht'
    rw [List.mem_map] at ht'
    obtain ⟨t, ht, rfl⟩ := ht'
    by_cases hassign : t.assignedTo = some mid
    · simp [hassign]
    · rw [if_neg hassign]
      cases ha : t.assignedTo with
      | none => rfl
      | some a =>
        have hval := h t ht
        rw [ha] at hval
        rw [List.any_eq_true] at hval
        obtain ⟨m, hm, hmid⟩ := hval
        rw [decide_eq_true_eq] at hmid
        have hane : a ≠ mid := by
          intro hcontra
          exact hassign (by rw [ha, hcontra])
        rw [List.any_eq_true]
        refine ⟨m, ?_, by rw [decide_eq_true_eq]; exact hmid⟩
        rw [List.mem_filter]
        exact ⟨hm, by rw [decide_eq_true_eq]; rw [hmid]; exact hane⟩

/-- C8 amended witness: deleting member m1 from a store satisfying the
invariant leaves the invariant intact. -/
theorem delete_member_preserves_assigned_invariant_witness :
    assignedToValidB dbTwoMembers.store = true ∧
    assignedToValidB (delete_team_member dbTwoMembers "m1").1.store = true :=
  ⟨by decide,
    delete_member_preserves_assigned_invariant dbTwoMembers "m1" (by decide)⟩

/-- A synchronizer pass never touches the entity store. -/
theorem sync_mindmap_internal_store (failStep : Bool) (db : DBState) :
    (sync_mindmap_internal failStep db).store = db.store := by
  unfold sync_mindmap_internal
  split
  · rfl
  · split <;> rfl

/-- The advisor team loop changes only the project-member links. -/
theorem addTeamLinks_store_eq (s : EntityStore) (pid : String) (l : List String) :
    (addTeamLinks s pid l).1.projects = s.projects ∧
    (addTeamLinks s pid l).1.tasks = s.tasks ∧
    (addTeamLinks s pid l).1.members = s.members := by
  induction l generalizing s with
  | nil => exact ⟨rfl, rfl, rfl⟩
  | cons mid rest ih =>
    unfold addTeamLinks
    cases hf : findMember s.members mid with
    | none => exact ih s
    | some mem =>
      by_cases hmem : (pid, mid) ∈ s.projectMembers
      · rw [if_pos hmem]
        exact ih s
      · rw [if_neg hmem]
        exact ih _

/-- Membership in the project-member links after the advisor team loop:
the old links, plus one (project, member) pair for every proposed
member id that resolves to an existing team member. -/
theorem addTeamLinks_pm_mem (s : EntityStore) (pid : String) (l : List String)
    (pr : String × String) :
    pr ∈ (addTeamLinks s pid l).1.projectMembers ↔
      pr ∈ s.projectMembers ∨
        ∃ mid ∈ l, pr = (pid, mid) ∧ (findMember s.members mid).isSome = true := by
  induction l generalizing s with
  | nil => simp [addTeamLinks]
  | cons mid rest ih =>
    unfold addTeamLinks
    cases hf : findMember s.members mid with
    | none =>
      rw [ih s]
      simp only [List.mem_cons]
      constructor
      · rintro (h | ⟨mid', hmid', hpr, hsome⟩)
        · exact Or.inl h
        · exact Or.inr ⟨mid', Or.inr hmid', hpr, hsome⟩
      · rintro (h | ⟨mid', hmid' | hmid', hpr, hsome⟩)
        · exact Or.inl h
        · subst hmid'
          rw [hf] at hsome
          exact absurd hsome (by simp)
        · exact Or.inr ⟨mid', hmid', hpr, hsome⟩
    | some mem =>
      by_cases hmem : (pid, mid) ∈ s.projectMembers
      · rw [if_pos hmem, ih s]
        simp only [List.mem_cons]
        constructor
        · rintro (h | ⟨mid', hmid', hpr, hsome⟩)
          · exact Or.inl h
          · exact Or.inr ⟨mid', Or.inr hmid', hpr, hsome⟩
        · rintro (h | ⟨mid', hmid' | hmid', hpr, hsome⟩)
          · exact Or.inl h
          · subst hmid'
            subst hpr
            exact Or.inl hmem
          · exact Or.inr ⟨mid', hmid', hpr, hsome⟩
      · rw [if_neg hmem]
        rw [ih { s with projectMembers := s.projectMembers ++ [(pid, mid)] }]
        simp only [List.mem_append, List.mem_singleton, List.mem_cons,
          List.not_mem_nil, or_false]
        constructor
        · rintro ((h | h) | ⟨mid', hmid', hpr, hsome⟩)
          · exact Or.inl h
          · exact Or.inr ⟨mid, Or.inl rfl, h, by rw [hf]; rfl⟩
          · exact Or.inr ⟨mid', Or.inr hmid', hpr, hsome⟩
        · rintro (h | ⟨mid', hmid' | hmid', hpr, hsome⟩)
          · exact Or.inl (Or.inl h)
          · subst hmid'
            exact Or.inl (Or.inr hpr)
          · exact Or.inr ⟨mid', hmid', hpr, hsome⟩

/-- The advisor assignment loop changes only the tasks. -/
theorem applyAssignments_store_eq (s : EntityStore)
    (l : List (String × String)) :
    (applyAssignments s l).1.projects = s.projects ∧
    (applyAssignments s l).1.members = s.members ∧
    (applyAssignments s l).1.projectMembers = s.projectMembers := by
  induction l generalizing s with
  | nil => exact ⟨rfl, rfl, rfl⟩
  | cons e rest ih =>
    obtain ⟨tid, mid⟩ := e
    unfold applyAssignments
    cases hT : findTask s.tasks tid with
    | none => exact ih s
    | some t0 =>
      cases hM : findMember s.members mid with
      | none => exact ih s
      | some mem => exact ih _

/-- Unfolding equation for lastApplicable on a cons cell. -/
theorem lastApplicable_cons (members : List TeamMember) (e : String × String)
    (rest : List (String × String)) (tid : String) :
    lastApplicable members (e :: rest) tid =
      match lastApplicable members rest tid with
      | some r => some r
      | none =>
        if e.1 = tid ∧ (findMember members e.2).isSome = true then some e
        else none := rfl

/-- The tasks after the advisor assignment loop: each task keeps its
row except for assignedTo, which is overwritten by the member id of the
last proposal entry that names this task and an existing member. -/
theorem applyAssignments_tasks_char (s : EntityStore)
    (l : List (String × String)) :
    (applyAssignments s l).1.tasks = s.tasks.map (fun t =>
      match lastApplicable s.members l t.id with
      | some e => { t with assignedTo := some e.2 }
      | none => t) := by
  induction l generalizing s with
  | nil =>
    unfold applyAssignments lastApplicable
    simp
  | cons e rest ih =>
    obtain ⟨tid, mid⟩ := e
    unfold applyAssignments
    cases hT : findTask s.tasks tid with
    | none =>
      rw [ih s]
      apply List.map_congr_left
      intro t ht
      have hne : ¬ tid = t.id := by
        intro hcontra
        have := List.find?_eq_none.mp hT t ht
        simp [hcontra] at this
      rw [lastApplicable_cons]
      cases hL : lastApplicable s.members rest t.id with
      | some r => rfl
      | none =>
        rw [if_neg]
        rintro ⟨h1, _⟩
        exact hne h1
    | some t0 =>
      cases hM : findMember s.members mid with
      | none =>
        rw [ih s]
        apply List.map_congr_left
        intro t ht
        dsimp only
        rw [lastApplicable_cons]
        cases hL : lastApplicable s.members rest t.id with
        | some r => rfl
        | none =>
          rw [if_neg]
          rintro ⟨_, h2⟩
          rw [hM] at h2
          simp at h2
      | some mem =>
        dsimp only
        rw [ih]
        rw [List.map_map]
        apply List.map_congr_left
        intro t ht
        dsimp only [Function.comp]
        rw [lastApplicable_cons]
        by_cases hid : t.id = tid
        · rw [if_pos hid]
          dsimp only
          cases hL : lastApplicable s.members rest t.id with
          | some r => rfl
          | none =>
            rw [if_pos ⟨hid.symm, by rw [hM]; rfl⟩]
        · rw [if_neg hid]
          cases hL : lastApplicable s.members rest t.id with
          | some r => rfl
          | none =>
            rw [if_neg]
            rintro ⟨h1, _⟩
            exact hid h1.symm

/-- C6 counterexample.  A proposal that is invalid per the claim (it
names the nonexistent member id "ghost") is nevertheless partially
applied: the valid entry assigning task t1 to existing member m1 is
written, refuting "no Task.assignedTo is written unless the entire
proposal is valid". -/
theorem advisor_partial_application_counterexample :
    findMember dbTwoTasks.store.members "ghost" = none ∧
    findTask (assign_tasks_intelligently_with_mcp dbTwoTasks "p1"
        (some mixedProposal)).1.store.tasks "t1" =
      some ⟨"t1", "Build API", "high", "Nov 10", "p1", some "m1"⟩ := by
  refine ⟨rfl, ?_⟩
  decide

/-- C6 amended.  The advisor validates per entry, not per proposal: an
unreachable advisor or unparseable proposal fails the whole operation
before any write (the database is returned unchanged), but a parseable
proposal is applied entry by entry — each proposed team member is
linked to the project exactly when the member id resolves (and keeps
existing links), and each proposed assignment overwrites the task's
assignedTo exactly when both the task id and the member id resolve
(the last such entry wins), regardless of the task's current
assignment or project; entries that fail lookup are silently skipped
while the rest are applied. -/
theorem advisor_per_entry_validation :
    (∀ db pid,
      (assign_tasks_intelligently_with_mcp db pid none).1 = db) ∧
    (∀ db pid prop,
      db.store.tasks.filter
        (fun t => t.projectId = pid ∧ t.assignedTo = none) ≠ [] →
      db.store.members ≠ [] →
      (assign_tasks_intelligently_with_mcp db pid (some prop)).1.store.tasks =
          db.store.tasks.map (fun t =>
            match lastApplicable db.store.members prop.assignments t.id with
            | some e => { t with assignedTo := some e.2 }
            | none => t) ∧
      ∀ pr, pr ∈ (assign_tasks_intelligently_with_mcp db pid
            (some prop)).1.store.projectMembers ↔
          pr ∈ db.store.projectMembers ∨
            ∃ mid ∈ prop.team, pr = (pid, mid) ∧
              (findMember db.store.members mid).isSome = true) := by
  constructor
  · intro db pid
    unfold assign_tasks_intelligently_with_mcp
    dsimp only
    split
    · rfl
    · split <;> rfl
  · intro db pid prop h1 h2
    unfold assign_tasks_intelligently_with_mcp
    dsimp only
    rw [if_neg h1, if_neg h2]
    dsimp only
    rw [sync_mindmap_internal_store]
    dsimp only
    have hteam := addTeamLinks_store_eq db.store pid prop.team
    constructor
    · rw [applyAssignments_tasks_char, hteam.2.1, hteam.2.2]
    · intro pr
      rw [(applyAssignments_store_eq _ _).2.2, addTeamLinks_pm_mem]

/-- C6 amended witness: the concrete mixed proposal applied to the
concrete database. -/
theorem advisor_per_entry_validation_witness :
    dbTwoTasks.store.tasks.filter
        (fun t => t.projectId = "p1" ∧ t.assignedTo = none) ≠ [] ∧
    dbTwoTasks.store.members ≠ [] ∧
    ((assign_tasks_intelligently_with_mcp dbTwoTasks "p1"
        (some mixedProposal)).1.store.tasks =
        dbTwoTasks.store.tasks.map (fun t =>
          match lastApplicable dbTwoTasks.store.members
              mixedProposal.assignments t.id with
          | some e => { t with assignedTo := some e.2 }
          | none => t) ∧
      ∀ pr, pr ∈ (assign_tasks_intelligently_with_mcp dbTwoTasks "p1"
            (some mixedProposal)).1.store.projectMembers ↔
          pr ∈ dbTwoTasks.store.projectMembers ∨
            ∃ mid ∈ mixedProposal.team, pr = ("p1", mid) ∧
              (findMember dbTwoTasks.store.members mid).isSome = true) :=
  ⟨by decide, by decide,
    advisor_per_entry_validation.2 dbTwoTasks "p1" mixedProposal
      (by decide) (by decide)⟩

/-! ### Structure of the synchronizer pass -/

/-- Phase 1 emits exactly one node per project. -/
theorem phase1_length (ps : List Project) (idx c : Nat)
    (m0 : String → Option Nat) :
    (phase1 ps idx c m0).1.length = ps.length := by
  induction ps generalizing idx c m0 with
  | nil => rfl
  | cons p rest ih =>
    unfold phase1
    dsimp only
    simp [List.length_cons, ih]

/-- Phase 1 advances the id counter by one per emitted node. -/
theorem phase1_counter (ps : List Project) (idx c : Nat)
    (m0 : String → Option Nat) :
    (phase1 ps idx c m0).2.1 = c + ps.length := by
  induction ps generalizing idx c m0 with
  | nil => rfl
  | cons p rest ih =>
    unfold phase1
    dsimp only
    rw [ih, List.length_cons]
    omega

/-- Phase 1 assigns consecutive ids starting at the incoming counter. -/
theorem phase1_ids (ps : List Project) (idx c : Nat)
    (m0 : String → Option Nat) :
    (phase1 ps idx c m0).1.map (fun n => n.id) = List.range' c ps.length := by
  induction ps generalizing idx c m0 with
  | nil => rfl
  | cons p rest ih =>
    unfold phase1
    dsimp only
    rw [List.map_cons, ih, List.length_cons, List.range'_succ]

/-- The node phase 1 emits for the project at position i. -/
theorem phase1_get (ps : List Project) (idx c : Nat)
    (m0 : String → Option Nat) (i : Nat) (p : Project)
    (hp : ps[i]? = some p) :
    (phase1 ps idx c m0).1[i]? =
      some ⟨c + i, 150, 250 + 450 * ((idx + i : Nat) : Int), p.name, 0,
        some "project", some p.id⟩ := by
  induction ps generalizing idx c m0 i with
  | nil => simp at hp
  | cons q rest ih =>
    unfold phase1
    dsimp only
    cases i with
    | zero =>
      rw [List.getElem?_cons_zero] at hp ⊢
      cases hp
      simp
    | succ j =>
      rw [List.getElem?_cons_succ] at hp ⊢
      rw [ih (idx + 1) (c + 1) _ j hp]
      have h1 : c + 1 + j = c + (j + 1) := by omega
      have h2 : idx + 1 + j = idx + (j + 1) := by omega
      rw [h1, h2]

/-- Phase 1 nodes matching a project-or-team predicate on a given
entity id are counted by the projects bearing that id. -/
theorem phase1_countP (ps : List Project) (idx c : Nat)
    (m0 : String → Option Nat) (pid : String) :
    ((phase1 ps idx c m0).1.countP
      (fun n => n.entityId = some pid ∧
        (n.entityType = some "project" ∨ n.entityType = some "team"))) =
      ps.countP (fun q => q.id = pid) := by
  induction ps generalizing idx c m0 with
  | nil => rfl
  | cons q rest ih =>
    unfold phase1
    dsimp only
    rw [List.countP_cons, List.countP_cons, ih]
    simp

/-- Keys present in the node_map stay present through phase 1. -/
theorem phase1_map_mono (ps : List Project) (idx c : Nat)
    (m0 : String → Option Nat) (key : String) (v : Nat)
    (h : m0 key = some v) :
    ∃ w, (phase1 ps idx c m0).2.2 key = some w := by
  induction ps generalizing idx c m0 v with
  | nil => exact ⟨v, h⟩
  | cons q rest ih =>
    unfold phase1
    dsimp only
    by_cases hk : key = projectKey q.id
    · exact ih (idx + 1) (c + 1) _ c (by rw [if_pos hk])
    · exact ih (idx + 1) (c + 1) _ v (by rw [if_neg hk]; exact h)

/-- After phase 1 the node_map has an entry for every project key. -/
theorem phase1_map_total (ps : List Project) (idx c : Nat)
    (m0 : String → Option Nat) (p : Project) (hp : p ∈ ps) :
    ∃ w, (phase1 ps idx c m0).2.2 (projectKey p.id) = some w := by
  induction ps generalizing idx c m0 with
  | nil => simp at hp
  | cons q rest ih =>
    unfold phase1
    dsimp only
    rcases List.mem_cons.mp hp with hq | hq
    · subst hq
      exact phase1_map_mono rest (idx + 1) (c + 1) _ _ c (by rw [if_pos rfl])
    · exact ih (idx + 1) (c + 1) _ hq

/-- Every node_map entry after phase 1 is below the final counter. -/
theorem phase1_map_bound (ps : List Project) (idx c : Nat)
    (m0 : String → Option Nat) (h : ∀ key v, m0 key = some v → v < c) :
    ∀ key v, (phase1 ps idx c m0).2.2 key = some v →
      v < (phase1 ps idx c m0).2.1 := by
  induction ps generalizing idx c m0 with
  | nil => exact h
  | cons q rest ih =>
    unfold phase1
    dsimp only
    apply ih (idx + 1) (c + 1)
    intro key v hv
    by_cases hk : key = projectKey q.id
    · rw [if_pos hk] at hv
      cases hv
      omega
    · rw [if_neg hk] at hv
      exact Nat.lt_succ_of_lt (h key v hv)

/-- Provenance of node_map entries built by phase 1 from an empty map:
each one is the project key of some list position j, mapped to c + j. -/
theorem phase1_map_char (ps : List Project) (idx c : Nat)
    (m0 : String → Option Nat) (key : String) (v : Nat)
    (h : (phase1 ps idx c m0).2.2 key = some v) :
    m0 key = some v ∨
      ∃ j q, ps[j]? = some q ∧ key = projectKey q.id ∧ v = c + j := by
  induction ps generalizing idx c m0 with
  | nil => exact Or.inl h
  | cons q rest ih =>
    unfold phase1 at h
    dsimp only at h
    rcases ih (idx + 1) (c + 1) _ h with hm | ⟨j, q', hj, hkey, hv⟩
    · by_cases hk : key = projectKey q.id
      · rw [if_pos hk] at hm
        cases hm
        exact Or.inr ⟨0, q, by simp, hk, by omega⟩
      · rw [if_neg hk] at hm
        exact Or.inl hm
    · exact Or.inr ⟨j + 1, q', by rw [List.getElem?_cons_succ]; exact hj,
        hkey, by omega⟩

/-- The task loop assigns consecutive ids starting at the incoming
counter, and leaves the counter advanced by the number of its nodes. -/
theorem taskLoop_ids (mid : Nat) (yS : Int) (mI : Nat) (ts : List Task)
    (tIdx c : Nat) :
    (taskLoop mid yS mI ts tIdx c).1.map (fun n => n.id) =
      List.range' c (taskLoop mid yS mI ts tIdx c).1.length ∧
    (taskLoop mid yS mI ts tIdx c).2.2 =
      c + (taskLoop mid yS mI ts tIdx c).1.length := by
  induction ts generalizing tIdx c with
  | nil => exact ⟨rfl, rfl⟩
  | cons t rest ih =>
    unfold taskLoop
    dsimp only
    obtain ⟨ih1, ih2⟩ := ih (tIdx + 1) (c + 1)
    refine ⟨?_, by rw [ih2, List.length_cons]; omega⟩
    rw [List.map_cons, ih1, List.length_cons, List.range'_succ]

/-- The node the task loop emits for the task at position k. -/
theorem taskLoop_get (mid : Nat) (yS : Int) (mI : Nat) (ts : List Task)
    (tIdx c : Nat) (k : Nat) (t : Task) (h : ts[k]? = some t) :
    ∃ i, (⟨i, 1350, yS + 90 * (mI : Int) + 60 * ((tIdx + k : Nat) : Int) - 20,
        truncTitle t.title, 3, some "task", some t.id⟩ : GNode) ∈
      (taskLoop mid yS mI ts tIdx c).1 := by
  induction ts generalizing tIdx c k with
  | nil => simp at h
  | cons t0 rest ih =>
    unfold taskLoop
    dsimp only
    cases k with
    | zero =>
      rw [List.getElem?_cons_zero] at h
      cases h
      exact ⟨c, by simp⟩
    | succ j =>
      rw [List.getElem?_cons_succ] at h
      obtain ⟨i, hi⟩ := ih (tIdx + 1) (c + 1) j h
      refine ⟨i, List.mem_cons_of_mem _ ?_⟩
      have : tIdx + 1 + j = tIdx + (j + 1) := by omega
      rw [this] at hi
      exact hi

/-- Every connection the task loop emits points from the member node to
one of the ids it assigns. -/
theorem taskLoop_conns (mid : Nat) (yS : Int) (mI : Nat) (ts : List Task)
    (tIdx c : Nat) :
    ∀ cn ∈ (taskLoop mid yS mI ts tIdx c).2.1,
      cn.fromNode = mid ∧ c ≤ cn.toNode ∧
        cn.toNode < (taskLoop mid yS mI ts tIdx c).2.2 := by
  induction ts generalizing tIdx c with
  | nil => intro cn hcn; simp [taskLoop] at hcn
  | cons t rest ih =>
    unfold taskLoop
    dsimp only
    intro cn hcn
    have hcount := (taskLoop_ids mid yS mI rest (tIdx + 1) (c + 1)).2
    rcases List.mem_cons.mp hcn with hc | hc
    · subst hc
      refine ⟨rfl, Nat.le_refl c, ?_⟩
      show c < _
      omega
    · obtain ⟨h1, h2, h3⟩ := ih (tIdx + 1) (c + 1) cn hc
      exact ⟨h1, by omega, h3⟩

/-- Every node the task loop emits is a task node. -/
theorem taskLoop_types (mid : Nat) (yS : Int) (mI : Nat) (ts : List Task)
    (tIdx c : Nat) :
    ∀ n ∈ (taskLoop mid yS mI ts tIdx c).1, n.entityType = some "task" := by
  induction ts generalizing tIdx c with
  | nil => intro n hn; simp [taskLoop] at hn
  | cons t rest ih =>
    unfold taskLoop
    dsimp only
    intro n hn
    rcases List.mem_cons.mp hn with hc | hc
    · subst hc; rfl
    · exact ih (tIdx + 1) (c + 1) n hc

/-- The member loop assigns consecutive ids starting at the incoming
counter, and leaves the counter advanced by the number of its nodes. -/
theorem memberLoop_ids (members : List TeamMember) (tasks : List Task)
    (teamId : Nat) (yS : Int) (ids : List String) (mIdx c : Nat) :
    (memberLoop members tasks teamId yS ids mIdx c).1.map (fun n => n.id) =
      List.range' c (memberLoop members tasks teamId yS ids mIdx c).1.length ∧
    (memberLoop members tasks teamId yS ids mIdx c).2.2 =
      c + (memberLoop members tasks teamId yS ids mIdx c).1.length := by
  induction ids generalizing mIdx c with
  | nil => exact ⟨rfl, rfl⟩
  | cons mid rest ih =>
    unfold memberLoop
    cases hf : findMember members mid with
    | none =>
      dsimp only
      exact ih (mIdx + 1) c
    | some mem =>
      dsimp only
      obtain ⟨t1, t2⟩ := taskLoop_ids c yS mIdx
        (tasks.filter (fun t => t.assignedTo = some mid)) 0 (c + 1)
      obtain ⟨m1, m2⟩ := ih (mIdx + 1)
        (taskLoop c yS mIdx (tasks.filter (fun t => t.assignedTo = some mid))
          0 (c + 1)).2.2
      constructor
      · rw [List.map_cons, List.map_append, t1, m1, t2,
          List.range'_append_1, List.length_cons, List.length_append,
          List.range'_succ]
        simp [Nat.add_comm]
      · rw [m2, t2, List.length_cons, List.length_append]
        omega

/-- The member and task nodes the member loop emits for the distinct
assigned member id at position j, when that member exists. -/
theorem memberLoop_get (members : List TeamMember) (tasks : List Task)
    (teamId : Nat) (yS : Int) (ids : List String) (mIdx c : Nat)
    (j : Nat) (mid : String) (hj : ids[j]? = some mid)
    (mem : TeamMember) (hmem : findMember members mid = some mem) :
    (∃ i, (⟨i, 950, yS + 90 * ((mIdx + j : Nat) : Int),
        mem.name ++ " - " ++ mem.role, 2, some "member", some mem.id⟩ : GNode) ∈
      (memberLoop members tasks teamId yS ids mIdx c).1) ∧
    (∀ (k : Nat) (t : Task),
      (tasks.filter (fun t => t.assignedTo = some mid))[k]? = some t →
      ∃ i, (⟨i, 1350, yS + 90 * ((mIdx + j : Nat) : Int) + 60 * (k : Int) - 20,
          truncTitle t.title, 3, some "task", some t.id⟩ : GNode) ∈
        (memberLoop members tasks teamId yS ids mIdx c).1) := by
  induction ids generalizing mIdx c j with
  | nil => simp at hj
  | cons mid0 rest ih =>
    cases j with
    | zero =>
      rw [List.getElem?_cons_zero] at hj
      cases hj
      unfold memberLoop
      rw [hmem]
      dsimp only
      constructor
      · exact ⟨c, by simp⟩
      · intro k t hk
        obtain ⟨i, hi⟩ := taskLoop_get c yS mIdx
          (tasks.filter (fun t => t.assignedTo = some mid)) 0 (c + 1) k t hk
        refine ⟨i, List.mem_cons_of_mem _ (List.mem_append_left _ ?_)⟩
        have h0 : ((0 : Nat) + k) = k := by omega
        rw [h0] at hi
        have h1 : ((mIdx + 0 : Nat) : Int) = (mIdx : Int) := by
          rw [Nat.add_zero]
        rw [h1]
        exact hi
    | succ j' =>
      rw [List.getElem?_cons_succ] at hj
      unfold memberLoop
      cases hf : findMember members mid0 with
      | none =>
        dsimp only
        have hres := ih (mIdx + 1) c j' hj
        have harith : mIdx + 1 + j' = mIdx + (j' + 1) := by omega
        rw [harith] at hres
        exact hres
      | some mem0 =>
        dsimp only
        have hres := ih (mIdx + 1)
          (taskLoop c yS mIdx (tasks.filter
            (fun t => t.assignedTo = some mid0)) 0 (c + 1)).2.2 j' hj
        have harith : mIdx + 1 + j' = mIdx + (j' + 1) := by omega
        rw [harith] at hres
        obtain ⟨⟨i1, hi1⟩, hres2⟩ := hres
        constructor
        · exact ⟨i1, List.mem_cons_of_mem _ (List.mem_append_right _ hi1)⟩
        · intro k t hk
          obtain ⟨i2, hi2⟩ := hres2 k t hk
          exact ⟨i2, List.mem_cons_of_mem _ (List.mem_append_right _ hi2)⟩

/-- Bounds on every connection the member loop emits: each one points
forward (from a node already numbered to a strictly later node), away
from the team node or a member node, into the id range of the loop. -/
theorem memberLoop_conns (members : List TeamMember) (tasks : List Task)
    (teamId : Nat) (yS : Int) (ids : List String) (mIdx c : Nat)
    (hteam : teamId < c) :
    ∀ cn ∈ (memberLoop members tasks teamId yS ids mIdx c).2.1,
      cn.fromNode < cn.toNode ∧ teamId ≤ cn.fromNode ∧
        cn.fromNode < (memberLoop members tasks teamId yS ids mIdx c).2.2 ∧
        c ≤ cn.toNode ∧
        cn.toNode < (memberLoop members tasks teamId yS ids mIdx c).2.2 := by
  induction ids generalizing mIdx c with
  | nil => intro cn hcn; simp [memberLoop] at hcn
  | cons mid rest ih =>
    unfold memberLoop
    cases hf : findMember members mid with
    | none =>
      dsimp only
      exact ih mIdx.succ c hteam
    | some mem =>
      dsimp only
      intro cn hcn
      have t2 := (taskLoop_ids c yS mIdx
        (tasks.filter (fun t => t.assignedTo = some mid)) 0 (c + 1)).2
      have m2 := (memberLoop_ids members tasks teamId yS rest (mIdx + 1)
        (taskLoop c yS mIdx (tasks.filter
          (fun t => t.assignedTo = some mid)) 0 (c + 1)).2.2).2
      rcases List.mem_cons.mp hcn with hc | hc
      · subst hc
        refine ⟨hteam, Nat.le_refl teamId, ?_, Nat.le_refl c, ?_⟩ <;>
          (dsimp only; omega)
      · rcases List.mem_append.mp hc with hc | hc
        · obtain ⟨h1, h2, h3⟩ := taskLoop_conns c yS mIdx
            (tasks.filter (fun t => t.assignedTo = some mid)) 0 (c + 1) cn hc
          rw [h1]
          exact ⟨by omega, by omega, by omega, by omega, by omega⟩
        · obtain ⟨h1, h2, h3, h4, h5⟩ := ih (mIdx + 1)
            (taskLoop c yS mIdx (tasks.filter
              (fun t => t.assignedTo = some mid)) 0 (c + 1)).2.2
            (by omega) cn hc
          exact ⟨h1, h2, h3, by omega, h5⟩

/-- Every node the member loop emits is a member node or a task node. -/
theorem memberLoop_types (members : List TeamMember) (tasks : List Task)
    (teamId : Nat) (yS : Int) (ids : List String) (mIdx c : Nat) :
    ∀ n ∈ (memberLoop members tasks teamId yS ids mIdx c).1,
      n.entityType = some "member" ∨ n.entityType = some "task" := by
  induction ids generalizing mIdx c with
  | nil => intro n hn; simp [memberLoop] at hn
  | cons mid rest ih =>
    unfold memberLoop
    cases hf : findMember members mid with
    | none =>
      dsimp only
      exact ih (mIdx + 1) c
    | some mem =>
      dsimp only
      intro n hn
      rcases List.mem_cons.mp hn with hc | hc
      · subst hc
        exact Or.inl rfl
      · rcases List.mem_append.mp hc with hc | hc
        · exact Or.inr (taskLoop_types c yS mIdx
            (tasks.filter (fun t => t.assignedTo = some mid)) 0 (c + 1) n hc)
        · exact ih (mIdx + 1) _ n hc

/-- Phase 2 assigns consecutive ids starting at the incoming counter,
and leaves the counter advanced by the number of its nodes. -/
theorem phase2_ids (s : EntityStore) (m : String → Option Nat)
    (ps : List Project) (idx c : Nat) (r : List GNode × List GConn × Nat)
    (h : phase2 s m ps idx c = some r) :
    r.1.map (fun n => n.id) = List.range' c r.1.length ∧
      r.2.2 = c + r.1.length := by
  induction ps generalizing idx c r with
  | nil =>
    unfold phase2 at h
    cases h
    exact ⟨rfl, rfl⟩
  | cons p rest ih =>
    unfold phase2 at h
    cases hm : m (projectKey p.id) with
    | none => rw [hm] at h; exact absurd h (by simp)
    | some pnid =>
      rw [hm] at h
      dsimp only at h
      by_cases ha : assignedIds (projectTasks s p.id) = []
      · rw [if_pos ha] at h
        exact ih (idx + 1) c r h
      · rw [if_neg ha] at h
        cases hrec : phase2 s m rest (idx + 1)
            (memberLoop s.members (projectTasks s p.id) c
              (150 + 450 * (idx : Int)) (assignedIds (projectTasks s p.id))
              0 (c + 1)).2.2 with
        | none => rw [hrec] at h; exact absurd h (by simp)
        | some rr =>
          rw [hrec] at h
          dsimp only at h
          cases h
          obtain ⟨m1, m2⟩ := memberLoop_ids s.members (projectTasks s p.id) c
            (150 + 450 * (idx : Int)) (assignedIds (projectTasks s p.id))
            0 (c + 1)
          obtain ⟨r1, r2⟩ := ih (idx + 1) _ rr hrec
          constructor
          · rw [List.map_cons, List.map_append, m1, r1, m2,
              List.range'_append_1, List.length_cons, List.length_append,
              List.range'_succ]
            simp [Nat.add_comm]
          · rw [r2, m2, List.length_cons, List.length_append]
            omega

/-- Phase 2 succeeds whenever the node_map has an entry for every
project key. -/
theorem phase2_total (s : EntityStore) (m : String → Option Nat)
    (ps : List Project) (idx c : Nat)
    (hk : ∀ p ∈ ps, ∃ v, m (projectKey p.id) = some v) :
    ∃ r, phase2 s m ps idx c = some r := by
  induction ps generalizing idx c with
  | nil => exact ⟨([], [], c), rfl⟩
  | cons p rest ih =>
    obtain ⟨v, hv⟩ := hk p (List.mem_cons_self p rest)
    unfold phase2
    rw [hv]
    dsimp only
    by_cases ha : assignedIds (projectTasks s p.id) = []
    · rw [if_pos ha]
      exact ih (idx + 1) c (fun q hq => hk q (List.mem_cons_of_mem p hq))
    · rw [if_neg ha]
      obtain ⟨rr, hrr⟩ := ih (idx + 1)
        (memberLoop s.members (projectTasks s p.id) c
          (150 + 450 * (idx : Int)) (assignedIds (projectTasks s p.id))
          0 (c + 1)).2.2
        (fun q hq => hk q (List.mem_cons_of_mem p hq))
      rw [hrr]
      exact ⟨_, rfl⟩

/-- The chunk phase 2 emits for the project at position i with a
nonempty distinct assigned id list: its team node is in the result, and
so is every node of its member loop, which starts right after the team
node id. -/
theorem phase2_chunk (s : EntityStore) (m : String → Option Nat)
    (ps : List Project) (idx c : Nat) (r : List GNode × List GConn × Nat)
    (h : phase2 s m ps idx c = some r) (i : Nat) (p : Project)
    (hp : ps[i]? = some p)
    (ha : assignedIds (projectTasks s p.id) ≠ []) :
    ∃ c', (⟨c', 550, 250 + 450 * ((idx + i : Nat) : Int), "Team Members", 1,
        some "team", some p.id⟩ : GNode) ∈ r.1 ∧
      ∀ n ∈ (memberLoop s.members (projectTasks s p.id) c'
          (150 + 450 * ((idx + i : Nat) : Int))
          (assignedIds (projectTasks s p.id)) 0 (c' + 1)).1, n ∈ r.1 := by
  induction ps generalizing idx c r i with
  | nil => simp at hp
  | cons p0 rest ih =>
    unfold phase2 at h
    cases hm : m (projectKey p0.id) with
    | none => rw [hm] at h; exact absurd h (by simp)
    | some pnid =>
      rw [hm] at h
      dsimp only at h
      by_cases ha0 : assignedIds (projectTasks s p0.id) = []
      · rw [if_pos ha0] at h
        cases i with
        | zero =>
          rw [List.getElem?_cons_zero] at hp
          cases hp
          exact absurd ha0 ha
        | succ i' =>
          rw [List.getElem?_cons_succ] at hp
          have hres := ih (idx + 1) c r h i' hp
          have harith : idx + 1 + i' = idx + (i' + 1) := by omega
          rw [harith] at hres
          exact hres
      · rw [if_neg ha0] at h
        cases hrec : phase2 s m rest (idx + 1)
            (memberLoop s.members (projectTasks s p0.id) c
              (150 + 450 * (idx : Int)) (assignedIds (projectTasks s p0.id))
              0 (c + 1)).2.2 with
        | none => rw [hrec] at h; exact absurd h (by simp)
        | some rr =>
          rw [hrec] at h
          dsimp only at h
          cases h
          cases i with
          | zero =>
            rw [List.getElem?_cons_zero] at hp
            cases hp
            have harith : ((idx + 0 : Nat) : Int) = (idx : Int) := by
              rw [Nat.add_zero]
            rw [harith]
            refine ⟨c, List.mem_cons_self _ _, ?_⟩
            intro n hn
            exact List.mem_cons_of_mem _ (List.mem_append_left _ hn)
          | succ i' =>
            rw [List.getElem?_cons_succ] at hp
            obtain ⟨c', hteam, hsub⟩ := ih (idx + 1) _ rr hrec i' hp
            have harith : idx + 1 + i' = idx + (i' + 1) := by omega
            rw [harith] at hteam hsub
            refine ⟨c', List.mem_cons_of_mem _ (List.mem_append_right _ hteam),
              ?_⟩
            intro n hn
            exact List.mem_cons_of_mem _ (List.mem_append_right _ (hsub n hn))

/-- Bounds on every connection phase 2 emits, assuming every node_map
entry is below the incoming counter: each connection points forward to
a strictly later node, and both endpoints stay below the final
counter. -/
theorem phase2_conns (s : EntityStore) (m : String → Option Nat)
    (ps : List Project) (idx c : Nat) (r : List GNode × List GConn × Nat)
    (h : phase2 s m ps idx c = some r)
    (hm : ∀ key v, m key = some v → v < c) :
    ∀ cn ∈ r.2.1, cn.fromNode < cn.toNode ∧ cn.fromNode < r.2.2 ∧
      c ≤ cn.toNode ∧ cn.toNode < r.2.2 := by
  induction ps generalizing idx c r with
  | nil =>
    unfold phase2 at h
    cases h
    intro cn hcn
    simp at hcn
  | cons p0 rest ih =>
    unfold phase2 at h
    cases hmk : m (projectKey p0.id) with
    | none => rw [hmk] at h; exact absurd h (by simp)
    | some pnid =>
      rw [hmk] at h
      dsimp only at h
      by_cases ha0 : assignedIds (projectTasks s p0.id) = []
      · rw [if_pos ha0] at h
        exact ih idx.succ c r h hm
      · rw [if_neg ha0] at h
        cases hrec : phase2 s m rest (idx + 1)
            (memberLoop s.members (projectTasks s p0.id) c
              (150 + 450 * (idx : Int)) (assignedIds (projectTasks s p0.id))
              0 (c + 1)).2.2 with
        | none => rw [hrec] at h; exact absurd h (by simp)
        | some rr =>
          rw [hrec] at h
          dsimp only at h
          cases h
          dsimp only
          have hml := (memberLoop_ids s.members (projectTasks s p0.id) c
            (150 + 450 * (idx : Int)) (assignedIds (projectTasks s p0.id))
            0 (c + 1)).2
          have hrr := (phase2_ids s m rest (idx + 1) _ rr hrec).2
          have hpn : pnid < c := hm _ _ hmk
          intro cn hcn
          rcases List.mem_cons.mp hcn with hc | hc
          · subst hc
            refine ⟨hpn, ?_, Nat.le_refl c, ?_⟩ <;> (dsimp only; omega)
          · rcases List.mem_append.mp hc with hc | hc
            · obtain ⟨h1, h2, h3, h4, h5⟩ := memberLoop_conns s.members
                (projectTasks s p0.id) c (150 + 450 * (idx : Int))
                (assignedIds (projectTasks s p0.id)) 0 (c + 1)
                (by omega) cn hc
              exact ⟨h1, by omega, by omega, by omega⟩
            · obtain ⟨h1, h2, h3, h4⟩ := ih (idx + 1) _ rr hrec
                (fun key v hv => by
                  have := hm key v hv
                  omega) cn hc
              exact ⟨h1, h2, by omega, h4⟩

/-- Provenance of the source endpoint of every phase 2 connection:
either a node numbered inside phase 2, or the node_map entry of a
project whose distinct assigned id list is nonempty. -/
theorem phase2_conns_from (s : EntityStore) (m : String → Option Nat)
    (ps : List Project) (idx c : Nat) (r : List GNode × List GConn × Nat)
    (h : phase2 s m ps idx c = some r) :
    ∀ cn ∈ r.2.1, c ≤ cn.fromNode ∨
      ∃ q ∈ ps, assignedIds (projectTasks s q.id) ≠ [] ∧
        m (projectKey q.id) = some cn.fromNode := by
  induction ps generalizing idx c r with
  | nil =>
    unfold phase2 at h
    cases h
    intro cn hcn
    simp at hcn
  | cons p0 rest ih =>
    unfold phase2 at h
    cases hmk : m (projectKey p0.id) with
    | none => rw [hmk] at h; exact absurd h (by simp)
    | some pnid =>
      rw [hmk] at h
      dsimp only at h
      by_cases ha0 : assignedIds (projectTasks s p0.id) = []
      · rw [if_pos ha0] at h
        intro cn hcn
        rcases ih (idx + 1) c r h cn hcn with hle | ⟨q, hq, hqa, hqm⟩
        · exact Or.inl hle
        · exact Or.inr ⟨q, List.mem_cons_of_mem _ hq, hqa, hqm⟩
      · rw [if_neg ha0] at h
        cases hrec : phase2 s m rest (idx + 1)
            (memberLoop s.members (projectTasks s p0.id) c
              (150 + 450 * (idx : Int)) (assignedIds (projectTasks s p0.id))
              0 (c + 1)).2.2 with
        | none => rw [hrec] at h; exact absurd h (by simp)
        | some rr =>
          rw [hrec] at h
          dsimp only at h
          cases h
          have hml := (memberLoop_ids s.members (projectTasks s p0.id) c
            (150 + 450 * (idx : Int)) (assignedIds (projectTasks s p0.id))
            0 (c + 1)).2
          intro cn hcn
          rcases List.mem_cons.mp hcn with hc | hc
          · subst hc
            exact Or.inr ⟨p0, List.mem_cons_self _ _, ha0, hmk⟩
          · rcases List.mem_append.mp hc with hc | hc
            · obtain ⟨_, h2, _, _, _⟩ := memberLoop_conns s.members
                (projectTasks s p0.id) c (150 + 450 * (idx : Int))
                (assignedIds (projectTasks s p0.id)) 0 (c + 1)
                (by omega) cn hc
              exact Or.inl h2
            · rcases ih (idx + 1) _ rr hrec cn hc with hle | ⟨q, hq, hqa, hqm⟩
              · exact Or.inl (by omega)
              · exact Or.inr ⟨q, List.mem_cons_of_mem _ hq, hqa, hqm⟩

/-- Every phase 2 node is a team node of a project with a nonempty
distinct assigned id list, a member node, or a task node. -/
theorem phase2_types (s : EntityStore) (m : String → Option Nat)
    (ps : List Project) (idx c : Nat) (r : List GNode × List GConn × Nat)
    (h : phase2 s m ps idx c = some r) :
    ∀ n ∈ r.1,
      (n.entityType = some "team" ∧ ∃ q ∈ ps, n.entityId = some q.id ∧
        assignedIds (projectTasks s q.id) ≠ []) ∨
      n.entityType = some "member" ∨ n.entityType = some "task" := by
  induction ps generalizing idx c r with
  | nil =>
    unfold phase2 at h
    cases h
    intro n hn
    simp at hn
  | cons p0 rest ih =>
    unfold phase2 at h
    cases hmk : m (projectKey p0.id) with
    | none => rw [hmk] at h; exact absurd h (by simp)
    | some pnid =>
      rw [hmk] at h
      dsimp only at h
      by_cases ha0 : assignedIds (projectTasks s p0.id) = []
      · rw [if_pos ha0] at h
        intro n hn
        rcases ih (idx + 1) c r h n hn with ⟨ht, q, hq, hqa⟩ | hmt
        · exact Or.inl ⟨ht, q, List.mem_cons_of_mem _ hq, hqa⟩
        · exact Or.inr hmt
      · rw [if_neg ha0] at h
        cases hrec : phase2 s m rest (idx + 1)
            (memberLoop s.members (projectTasks s p0.id) c
              (150 + 450 * (idx : Int)) (assignedIds (projectTasks s p0.id))
              0 (c + 1)).2.2 with
        | none => rw [hrec] at h; exact absurd h (by simp)
        | some rr =>
          rw [hrec] at h
          dsimp only at h
          cases h
          intro n hn
          rcases List.mem_cons.mp hn with hc | hc
          · subst hc
            exact Or.inl ⟨rfl, p0, List.mem_cons_self _ _, rfl, ha0⟩
          · rcases List.mem_append.mp hc with hc | hc
            · exact Or.inr (memberLoop_types s.members (projectTasks s p0.id)
                c (150 + 450 * (idx : Int))
                (assignedIds (projectTasks s p0.id)) 0 (c + 1) n hc)
            · rcases ih (idx + 1) _ rr hrec n hc with ⟨ht, q, hq, hqa⟩ | hmt
              · exact Or.inl ⟨ht, q, List.mem_cons_of_mem _ hq, hqa⟩
              · exact Or.inr hmt

/-- A synchronizer pass always produces a graph: the node_map lookups
in phase 2 can never fail because phase 1 inserted every project key. -/
theorem sync_build_total (s : EntityStore) : ∃ g, sync_build s = some g := by
  unfold sync_build
  by_cases hp : s.projects = []
  · rw [if_pos hp]
    exact ⟨_, rfl⟩
  · rw [if_neg hp]
    dsimp only
    obtain ⟨r, hr⟩ := phase2_total s
      (phase1 s.projects 0 0 (fun _ => none)).2.2 s.projects 0
      (phase1 s.projects 0 0 (fun _ => none)).2.1
      (fun p hp' => phase1_map_total s.projects 0 0 _ p hp')
    rw [hr]
    exact ⟨_, rfl⟩

/-- Decomposition of a successful synchronizer pass into its phases. -/
theorem sync_build_cases (s : EntityStore) (g : Graph)
    (hg : sync_build s = some g) :
    (s.projects = [] ∧ g = ⟨[], []⟩) ∨
      (s.projects ≠ [] ∧
        ∃ r, phase2 s (phase1 s.projects 0 0 (fun _ => none)).2.2
            s.projects 0 (phase1 s.projects 0 0 (fun _ => none)).2.1 = some r ∧
          g.nodes = (phase1 s.projects 0 0 (fun _ => none)).1 ++ r.1 ∧
          g.conns = r.2.1) := by
  unfold sync_build at hg
  by_cases hp : s.projects = []
  · rw [if_pos hp] at hg
    cases hg
    exact Or.inl ⟨hp, rfl⟩
  · rw [if_neg hp] at hg
    dsimp only at hg
    cases hrec : phase2 s (phase1 s.projects 0 0 (fun _ => none)).2.2
        s.projects 0 (phase1 s.projects 0 0 (fun _ => none)).2.1 with
    | none => rw [hrec] at hg; exact absurd hg (by simp)
    | some r =>
      rw [hrec] at hg
      injection hg with hg2
      subst hg2
      exact Or.inr ⟨hp, r, rfl, rfl, rfl⟩

/-- The node ids of a successful pass are exactly 0, 1, ..., N-1 in
emission order. -/
theorem sync_build_ids (s : EntityStore) (g : Graph)
    (hg : sync_build s = some g) :
    g.nodes.map (fun n => n.id) = List.range g.nodes.length := by
  rcases sync_build_cases s g hg with ⟨hp, rfl⟩ | ⟨hp, r, hr, hn, hc⟩
  · simp
  · have hc1 := phase1_counter s.projects 0 0 (fun _ => none)
    rw [hn, List.map_append, phase1_ids, (phase2_ids s _ s.projects 0 _ r hr).1,
      hc1, List.range'_append_1, List.length_append, phase1_length,
      List.range_eq_range', Nat.add_comm r.1.length s.projects.length]

/-- C3.  Every synchronizer pass assigns node ids from a single counter
starting at 0, incremented once per emitted node in emission order (all
project nodes first, then per project the team node, the member nodes
and each member's task nodes): the ids of the emitted node list are
exactly 0, 1, ..., N-1 in order, so the id set is 0..N-1, and the
assignment is a deterministic function of the entity store because
sync_build is one. -/
theorem sync_ids_dense (s : EntityStore) :
    ∃ g, sync_build s = some g ∧
      g.nodes.map (fun n => n.id) = List.range g.nodes.length := by
  obtain ⟨g, hg⟩ := sync_build_total s
  exact ⟨g, hg, sync_build_ids s g hg⟩

/-- C10.  Every connection a synchronizer pass creates points from a
lower node id to a strictly higher one (parents are emitted, hence
numbered, before their children), and both endpoints are ids of nodes
created in the same pass. -/
theorem sync_conns_wellformed (s : EntityStore) (g : Graph)
    (hg : sync_build s = some g) :
    ∀ cn ∈ g.conns, cn.fromNode < cn.toNode ∧
      cn.fromNode ∈ g.nodes.map (fun n => n.id) ∧
      cn.toNode ∈ g.nodes.map (fun n => n.id) := by
  have hids := sync_build_ids s g hg
  rcases sync_build_cases s g hg with ⟨hp, rfl⟩ | ⟨hp, r, hr, hn, hc⟩
  · intro cn hcn
    simp at hcn
  · intro cn hcn
    rw [hc] at hcn
    have hbound := phase1_map_bound s.projects 0 0 (fun _ => none)
      (fun key v hv => by simp at hv)
    obtain ⟨h1, h2, h3, h4⟩ := phase2_conns s _ s.projects 0 _ r hr hbound
      cn hcn
    have hc1 := phase1_counter s.projects 0 0 (fun _ => none)
    have hr22 := (phase2_ids s _ s.projects 0 _ r hr).2
    have hlen : g.nodes.length = s.projects.length + r.1.length := by
      rw [hn, List.length_append, phase1_length]
    rw [hids]
    exact ⟨h1, by rw [List.mem_range]; omega, by rw [List.mem_range]; omega⟩

/-- C2.  After a successful synchronizer pass the node layout follows
the fixed formula: the project at enumeration index i yields a level-0
node at (150, 250+450i) with the project name and back-reference; when
its distinct assigned id list is nonempty, a level-1 team node at
(550, 250+450i); the j-th distinct assigned id (ascending order), when
it resolves to a member, yields a level-2 node at (950, 150+450i+90j)
with text name - role; and that member's k-th task in store order
yields a level-3 node at (1350, 150+450i+90j+60k-20) whose text is the
title truncated to 40 characters with an ellipsis exactly when longer
than 40. -/
theorem sync_layout (s : EntityStore) (g : Graph)
    (hg : sync_build s = some g) (i : Nat) (p : Project)
    (hp : s.projects[i]? = some p) :
    (∃ nid, (⟨nid, 150, 250 + 450 * (i : Int), p.name, 0,
        some "project", some p.id⟩ : GNode) ∈ g.nodes) ∧
    (assignedIds (projectTasks s p.id) ≠ [] →
      ∃ nid, (⟨nid, 550, 250 + 450 * (i : Int), "Team Members", 1,
        some "team", some p.id⟩ : GNode) ∈ g.nodes) ∧
    (∀ (j : Nat) (mid : String) (mem : TeamMember),
      (assignedIds (projectTasks s p.id))[j]? = some mid →
      findMember s.members mid = some mem →
      (∃ nid, (⟨nid, 950, 150 + 450 * (i : Int) + 90 * (j : Int),
          mem.name ++ " - " ++ mem.role, 2, some "member",
          some mem.id⟩ : GNode) ∈ g.nodes) ∧
      (∀ (k : Nat) (t : Task),
        ((projectTasks s p.id).filter
          (fun t => t.assignedTo = some mid))[k]? = some t →
        ∃ nid, (⟨nid, 1350,
            150 + 450 * (i : Int) + 90 * (j : Int) + 60 * (k : Int) - 20,
            truncTitle t.title, 3, some "task",
            some t.id⟩ : GNode) ∈ g.nodes)) := by
  rcases sync_build_cases s g hg with ⟨hp0, rfl⟩ | ⟨hp0, r, hr, hn, hc⟩
  · rw [hp0] at hp
    simp at hp
  · have hproj := phase1_get s.projects 0 0 (fun _ => none) i p hp
    refine ⟨?_, ?_, ?_⟩
    · refine ⟨0 + i, ?_⟩
      have harith : (250 : Int) + 450 * ((0 + i : Nat) : Int) =
          250 + 450 * (i : Int) := by push_cast; ring
      have hmem := List.getElem?_mem hproj
      rw [harith] at hmem
      rw [hn]
      exact List.mem_append_left _ hmem
    · intro ha
      obtain ⟨c', hteam, _⟩ := phase2_chunk s _ s.projects 0 _ r hr i p hp ha
      refine ⟨c', ?_⟩
      have harith : (250 : Int) + 450 * ((0 + i : Nat) : Int) =
          250 + 450 * (i : Int) := by push_cast; ring
      rw [harith] at hteam
      rw [hn]
      exact List.mem_append_right _ hteam
    · intro j mid mem hj hmem
      by_cases ha : assignedIds (projectTasks s p.id) = []
      · rw [ha] at hj
        simp at hj
      · obtain ⟨c', _, hsub⟩ := phase2_chunk s _ s.projects 0 _ r hr i p hp ha
        obtain ⟨hmnode, htasks⟩ := memberLoop_get s.members
          (projectTasks s p.id) c' (150 + 450 * ((0 + i : Nat) : Int))
          (assignedIds (projectTasks s p.id)) 0 (c' + 1) j mid hj mem hmem
        constructor
        · obtain ⟨i1, hi1⟩ := hmnode
          have harith : (150 : Int) + 450 * ((0 + i : Nat) : Int) +
              90 * ((0 + j : Nat) : Int) =
              150 + 450 * (i : Int) + 90 * (j : Int) := by push_cast; ring
          rw [harith] at hi1
          exact ⟨i1, by rw [hn]; exact List.mem_append_right _ (hsub _ hi1)⟩
        · intro k t hk
          obtain ⟨i2, hi2⟩ := htasks k t hk
          have harith : (150 : Int) + 450 * ((0 + i : Nat) : Int) +
              90 * ((0 + j : Nat) : Int) + 60 * (k : Int) - 20 =
              150 + 450 * (i : Int) + 90 * (j : Int) + 60 * (k : Int) - 20 := by
            push_cast; ring
          rw [harith] at hi2
          exact ⟨i2, by rw [hn]; exact List.mem_append_right _ (hsub _ hi2)⟩

/-- If no task of the list has a non-null assignment, the distinct
truthy assigned id list is empty. -/
theorem assignedIds_nil_of_no_assigned (ts : List Task)
    (h : ts.filterMap Task.assignedTo = []) :
    assignedIds ts = [] := by
  have h2 : ts.filterMap truthyAssigned = [] := by
    rw [List.filterMap_eq_nil_iff] at h ⊢
    intro t ht
    have := h t ht
    simp [truthyAssigned, this]
  unfold assignedIds
  rw [h2]
  rfl

/-- The node_map project keys are injective in the project id. -/
theorem projectKey_inj {a b : String} (h : projectKey a = projectKey b) :
    a = b := by
  unfold projectKey at h
  have h2 := congrArg String.data h
  rw [String.data_append, String.data_append] at h2
  exact String.ext (List.append_cancel_left h2)

/-- With pairwise distinct project ids, exactly one project of the list
carries the id of a listed project. -/
theorem countP_id_eq_one (ps : List Project) (p : Project)
    (hN : (ps.map (fun q => q.id)).Nodup) (hmem : p ∈ ps) :
    ps.countP (fun q => q.id = p.id) = 1 := by
  induction ps with
  | nil => cases hmem
  | cons q rest ih =>
    rw [List.map_cons, List.nodup_cons] at hN
    obtain ⟨hnotin, hN'⟩ := hN
    rw [List.countP_cons]
    rcases List.mem_cons.mp hmem with rfl | hmem'
    · have h0 : rest.countP (fun q' => q'.id = p.id) = 0 := by
        rw [List.countP_eq_zero]
        intro q' hq' hcontra
        apply hnotin
        have hq'id : q'.id = p.id := by simpa using hcontra
        rw [← hq'id]
        exact List.mem_map_of_mem _ hq'
      rw [h0]
      simp
    · have hq : ¬ (q.id = p.id) := by
        intro hcontra
        apply hnotin
        rw [hcontra]
        exact List.mem_map_of_mem _ hmem'
      rw [ih hN' hmem']
      simp [hq]

/-- C4.  A project whose tasks have no non-null assigned member gets
exactly one node from a synchronizer pass: among all emitted nodes,
exactly one carries its entity id with a project or team type — its
level-0 project node, which is emitted with id i — and no connection of
the pass touches that node, so no level-1, level-2 or level-3 subtree
exists for it.  (Distinct project ids are the database primary-key
guarantee.) -/
theorem sync_unassigned_project_isolated (s : EntityStore) (g : Graph)
    (i : Nat) (p : Project)
    (hN : (s.projects.map (fun q => q.id)).Nodup)
    (hp : s.projects[i]? = some p)
    (ha : (projectTasks s p.id).filterMap Task.assignedTo = [])
    (hg : sync_build s = some g) :
    g.nodes.countP (fun n => n.entityId = some p.id ∧
      (n.entityType = some "project" ∨ n.entityType = some "team")) = 1 ∧
    (⟨i, 150, 250 + 450 * (i : Int), p.name, 0, some "project",
      some p.id⟩ : GNode) ∈ g.nodes ∧
    ∀ cn ∈ g.conns, cn.fromNode ≠ i ∧ cn.toNode ≠ i := by
  have haIds : assignedIds (projectTasks s p.id) = [] :=
    assignedIds_nil_of_no_assigned _ ha
  rcases sync_build_cases s g hg with ⟨hp0, rfl⟩ | ⟨hp0, r, hr, hn, hc⟩
  · rw [hp0] at hp
    simp at hp
  · refine ⟨?_, ?_, ?_⟩
    · rw [hn, List.countP_append, phase1_countP]
      have hzero : r.1.countP (fun n => n.entityId = some p.id ∧
          (n.entityType = some "project" ∨ n.entityType = some "team")) = 0 := by
        rw [List.countP_eq_zero]
        intro n hnr hpred
        obtain ⟨hid, hty⟩ : n.entityId = some p.id ∧
            (n.entityType = some "project" ∨ n.entityType = some "team") := by
          simpa using hpred
        rcases phase2_types s _ s.projects 0 _ r hr n hnr with
          ⟨ht, q, hq, hqid, hqa⟩ | hmt | htk
        · rw [hqid] at hid
          have hqp : q.id = p.id := by
            injection hid
          rw [hqp] at hqa
          exact hqa haIds
        · rcases hty with hty | hty <;> rw [hmt] at hty <;> simp at hty
        · rcases hty with hty | hty <;> rw [htk] at hty <;> simp at hty
      rw [hzero, countP_id_eq_one s.projects p hN (List.getElem?_mem hp)]
    · have hproj := phase1_get s.projects 0 0 (fun _ => none) i p hp
      have hmem := List.getElem?_mem hproj
      have h1 : (0 : Nat) + i = i := Nat.zero_add i
      rw [h1] at hmem
      rw [hn]
      exact List.mem_append_left _ hmem
    · intro cn hcn
      rw [hc] at hcn
      have hbound := phase1_map_bound s.projects 0 0 (fun _ => none)
        (fun key v hv => by simp at hv)
      have hc1 := phase1_counter s.projects 0 0 (fun _ => none)
      have hilt : i < s.projects.length :=
        (List.getElem?_eq_some_iff.mp hp).1
      constructor
      · intro heq
        rcases phase2_conns_from s _ s.projects 0 _ r hr cn hcn with
          hle | ⟨q, hq, hqa, hqm⟩
        · omega
        · rw [heq] at hqm
          rcases phase1_map_char s.projects 0 0 _ _ _ hqm with
            habs | ⟨j, qj, hj, hkey, hv⟩
          · simp at habs
          · have hji : j = i := by omega
            rw [hji, hp] at hj
            have hqj : qj = p := by
              injection hj with hj2
              exact hj2.symm
            have hqid : q.id = qj.id := projectKey_inj hkey
            apply hqa
            rw [hqid, hqj, haIds]
      · have hto := (phase2_conns s _ s.projects 0 _ r hr hbound cn hcn).2.2.1
        omega

set_option maxRecDepth 4000

/-- C2 witness: the layout of the concrete one-project store, whose
pass yields exactly the four sample nodes. -/
theorem sync_layout_witness :
    sync_build sampleStore = some sampleGraph ∧
    sampleStore.projects[0]? = some ⟨"p1", "Website"⟩ ∧
    ((∃ nid, (⟨nid, 150, 250 + 450 * ((0 : Nat) : Int), "Website", 0,
        some "project", some "p1"⟩ : GNode) ∈ sampleGraph.nodes) ∧
    (assignedIds (projectTasks sampleStore "p1") ≠ [] →
      ∃ nid, (⟨nid, 550, 250 + 450 * ((0 : Nat) : Int), "Team Members", 1,
        some "team", some "p1"⟩ : GNode) ∈ sampleGraph.nodes) ∧
    (∀ (j : Nat) (mid : String) (mem : TeamMember),
      (assignedIds (projectTasks sampleStore "p1"))[j]? = some mid →
      findMember sampleStore.members mid = some mem →
      (∃ nid, (⟨nid, 950,
          150 + 450 * ((0 : Nat) : Int) + 90 * (j : Int),
          mem.name ++ " - " ++ mem.role, 2, some "member",
          some mem.id⟩ : GNode) ∈ sampleGraph.nodes) ∧
      (∀ (k : Nat) (t : Task),
        ((projectTasks sampleStore "p1").filter
          (fun t => t.assignedTo = some mid))[k]? = some t →
        ∃ nid, (⟨nid, 1350,
            150 + 450 * ((0 : Nat) : Int) + 90 * (j : Int) +
              60 * (k : Int) - 20,
            truncTitle t.title, 3, some "task",
            some t.id⟩ : GNode) ∈ sampleGraph.nodes))) :=
  ⟨by decide, by decide,
    sync_layout sampleStore sampleGraph (by decide) 0 ⟨"p1", "Website"⟩
      (by decide)⟩

/-- C4 witness: the concrete store whose only project has one
unassigned task. -/
theorem sync_unassigned_project_isolated_witness :
    (storeNoMembers.projects.map (fun q => q.id)).Nodup ∧
    storeNoMembers.projects[0]? = some ⟨"p1", "Website"⟩ ∧
    (projectTasks storeNoMembers "p1").filterMap Task.assignedTo = [] ∧
    sync_build storeNoMembers = some graphOnlyProject ∧
    (graphOnlyProject.nodes.countP (fun n => n.entityId = some "p1" ∧
        (n.entityType = some "project" ∨ n.entityType = some "team")) = 1 ∧
      (⟨0, 150, 250 + 450 * ((0 : Nat) : Int), "Website", 0, some "project",
        some "p1"⟩ : GNode) ∈ graphOnlyProject.nodes ∧
      ∀ cn ∈ graphOnlyProject.conns, cn.fromNode ≠ 0 ∧ cn.toNode ≠ 0) :=
  ⟨by decide, by decide, by decide, by decide,
    sync_unassigned_project_isolated storeNoMembers graphOnlyProject 0
      ⟨"p1", "Website"⟩ (by decide) (by decide) (by decide) (by decide)⟩

/-- C10 witness: the connections of the concrete sample pass. -/
theorem sync_conns_wellformed_witness :
    sync_build sampleStore = some sampleGraph ∧
    ∀ cn ∈ sampleGraph.conns, cn.fromNode < cn.toNode ∧
      cn.fromNode ∈ sampleGraph.nodes.map (fun n => n.id) ∧
      cn.toNode ∈ sampleGraph.nodes.map (fun n => n.id) :=
  ⟨by decide, sync_conns_wellformed sampleStore sampleGraph (by decide)⟩

end TeamDash
